import Mathlib

/-!
# Verification of the lottery progress-accumulation engine

A shallow embedding of the progressive match-accumulation and standings
engine of the `lottoCheck` repository (`lottery.py`, `drawing.py`,
`future_winners.py`), together with proofs of the specification's claims
about it.

Python values are modelled as follows: lottery numbers are `Int`, names
and draw dates are `String`, the Python `dict` of players is an
insertion-ordered association list, and a Python `set` built from lists
`a` and `b` is the list `(a ++ b).dedup`; `sorted(...)` is a stable
ascending insertion sort.  All definitions are executable.
-/

/-- Python's `sorted` on a list of integers (ascending, stable). -/
def pysorted (l : List Int) : List Int := l.insertionSort (· ≤ ·)

/-- One value of the `players` map of the Progress Store:
`{'total_correct': ..., 'correct_numbers': [...]}` (`drawing.py` lines 47-50,
`lottery.py` lines 225-228). -/
structure PlayerEntry where
  total_correct : Nat
  correct_numbers : List Int
deriving DecidableEq, Repr

/-- The Progress Store `{'players': {...}, 'processed_draws': [...]}`
(`drawing.py` lines 17-20, `lottery.py` lines 34-37).  The Python dict is
modelled as an insertion-ordered association list. -/
structure Progress where
  players : List (String × PlayerEntry)
  processed_draws : List String
deriving DecidableEq, Repr

/-- The initial Progress Store state set up in `__init__`. -/
def initialProgress : Progress := ⟨[], []⟩

/-- One row of `lottery_participants.csv`: a name and the 10 chosen numbers
(`Name, Number1..Number10`). -/
structure Participant where
  name : String
  numbers : List Int
deriving DecidableEq, Repr

/-- Python dict lookup `players.get(name)` on the association-list model. -/
def lookupPlayer : List (String × PlayerEntry) → String → Option PlayerEntry
  | [], _ => none
  | (k, v) :: rest, n => if k = n then some v else lookupPlayer rest n

/-- Python dict assignment `players[name] = e`: replace the first binding in
place if the key is present, otherwise append (insertion order). -/
def setPlayer : List (String × PlayerEntry) → String → PlayerEntry → List (String × PlayerEntry)
  | [], n, e => [(n, e)]
  | (k, v) :: rest, n, e => if k = n then (k, e) :: rest else (k, v) :: setPlayer rest n e

/-- `progress['players'].get(name, {}).get('correct_numbers', [])`: the stored
correct-number list of a player, defaulting to the empty list.  This also
models the `if name not in players: players[name] = {'total_correct': 0,
'correct_numbers': []}` initialisation in `update_progress`, since the fresh
entry's list is empty. -/
def correctOf (ps : List (String × PlayerEntry)) (n : String) : List Int :=
  match lookupPlayer ps n with
  | some e => e.correct_numbers
  | none => []

/-- The body of the `update_progress` loop for one `(name, correct_numbers)`
pair (`drawing.py` lines 45-58, `lottery.py` lines 223-235):
`all_correct = set(current) | set(new)`; store `sorted(list(all_correct))`
and `len(all_correct)`. -/
def updateOnePlayer (ps : List (String × PlayerEntry)) (name : String) (nums : List Int) :
    List (String × PlayerEntry) :=
  let all_correct := (correctOf ps name ++ nums).dedup
  setPlayer ps name ⟨all_correct.length, pysorted all_correct⟩

/-- `LotteryTracker.update_progress` / `LotteryManager.update_progress`
(`drawing.py` lines 44-62, `lottery.py` lines 221-239): fold every
`(name, correct_numbers)` pair into the players map, then append the draw
date to `processed_draws` if it is not already there.  (The trailing
`save_progress` is persistence, outside the state model.) -/
def update_progress (p : Progress) (player_results : List (String × List Int))
    (draw_date : String) : Progress :=
  { players := player_results.foldl (fun ps r => updateOnePlayer ps r.1 r.2) p.players,
    processed_draws :=
      if draw_date ∈ p.processed_draws then p.processed_draws
      else p.processed_draws ++ [draw_date] }

/-- The `player_results` list built by the `check_participants` loop
(`drawing.py` line 181, `lottery.py` line 279): for each roster row, the
name paired with `[n for n in numbers if n in winning_numbers]` where
`numbers` is the sorted list of the row's 10 chosen numbers. -/
def playerResults (roster : List Participant) (winning : List Int) :
    List (String × List Int) :=
  roster.map (fun pt => (pt.name, (pysorted pt.numbers).filter (fun n => n ∈ winning)))

-- ## Display strings and report rows

/-- `termcolor.colored(text, 'green')`. -/
def coloredGreen (text : String) : String := "\x1b[32m" ++ text ++ "\x1b[0m"

/-- `colored_intense(text, 'green')` (`drawing.py` lines 9-11,
`lottery.py` lines 24-26). -/
def colored_intense (text : String) : String := "\x1b[1m" ++ coloredGreen text ++ "\x1b[0m"

/-- Python's `f"{n:2d}"`: decimal, right-justified to width 2. -/
def fmt2 (n : Int) : String :=
  let s := toString n
  if s.length < 2 then " " ++ s else s

/-- The annotated `number_str` built per participant (`drawing.py`
lines 164-175, `lottery.py` lines 265-273): each chosen number rendered
intense green if truly new, green if previously or currently correct,
plain otherwise; joined by single spaces inside brackets (the loop plus
`rstrip`). -/
def number_str (numbers : List Int) (truly_new previous correct_in_draw : List Int) :
    String :=
  let piece := fun (n : Int) =>
    if n ∈ truly_new then colored_intense (fmt2 n)
    else if n ∈ previous ∨ n ∈ correct_in_draw then coloredGreen (fmt2 n)
    else fmt2 n
  "[" ++ String.intercalate " " (numbers.map piece) ++ "]"

/-- One element of the `results` list of `check_participants`: the Python
tuple `(total_correct, new_correct, name, number_str)`. -/
abbrev Row := Nat × Nat × String × String

def rowTotal (r : Row) : Nat := r.1

def rowNew (r : Row) : Nat := r.2.1

def rowName (r : Row) : String := r.2.2.1

def rowStr (r : Row) : String := r.2.2.2

/-- Python string `<` (lexicographic by code point), as a computable
comparison on the character list. -/
def strLtB (a b : String) : Bool := decide (a.toList < b.toList)

/-- Python tuple `<` on `results` rows: lexicographic on
`(total_correct, new_correct, name, number_str)`. -/
def rowLtB (a b : Row) : Bool :=
  decide (rowTotal a < rowTotal b) ||
    (decide (rowTotal a = rowTotal b) &&
      (decide (rowNew a < rowNew b) ||
        (decide (rowNew a = rowNew b) &&
          (strLtB (rowName a) (rowName b) ||
            (decide (rowName a = rowName b) && strLtB (rowStr a) (rowStr b))))))

/-- The ordering `results.sort(reverse=True)` sorts by: row `a` may precede
row `b` iff `a` is not tuple-less-than `b`. -/
def rowGe (a b : Row) : Prop := rowLtB a b = false

instance : DecidableRel rowGe := fun a b => instDecidableEqBool (rowLtB a b) false

/-- The lexicographic key realising the Python tuple order on rows. -/
def rowKey (r : Row) : ℕ ×ₗ ℕ ×ₗ String ×ₗ String :=
  toLex (rowTotal r, toLex (rowNew r, toLex (rowName r, rowStr r)))


/-- `results.sort(reverse=True)` (`drawing.py` line 184, `lottery.py`
line 281): a stable descending sort by the full tuple. -/
def sortResults (rows : List Row) : List Row := rows.insertionSort rowGe

/-- The `results` list built by the per-participant loop of
`check_participants` (`drawing.py` lines 151-181, `lottery.py`
lines 257-279), in roster order, before sorting. -/
def resultRows (roster : List Participant) (p : Progress) (winning : List Int)
    (is_latest : Bool) : List Row :=
  roster.map (fun pt =>
    let numbers := pysorted pt.numbers
    let previous_correct := correctOf p.players pt.name
    let correct_in_draw := numbers.filter (fun n => n ∈ winning)
    let truly_new_correct := if is_latest then correct_in_draw.filter (fun n => n ∉ previous_correct) else []
    let total_correct := (previous_correct ++ correct_in_draw).dedup.length
    let new_correct := if is_latest then truly_new_correct.dedup.length else 0
    (total_correct, new_correct, pt.name,
      number_str numbers truly_new_correct previous_correct correct_in_draw))

/-- `check_participants` (`drawing.py` lines 140-230, `lottery.py`
lines 241-324): compute the report rows against the pre-fold state, sort
them descending, and fold `player_results` into the Progress Store via
`update_progress`.  Returns the post-fold state and the sorted rows. -/
def check_participants (roster : List Participant) (p : Progress) (winning : List Int)
    (draw_date : String) (is_latest : Bool) : Progress × List Row :=
  (update_progress p (playerResults roster winning) draw_date,
    sortResults (resultRows roster p winning is_latest))

/-- The Progress-Store effect of one fold of a draw. -/
def foldDraw (roster : List Participant) (p : Progress) (winning : List Int)
    (draw_date : String) (is_latest : Bool) : Progress :=
  (check_participants roster p winning draw_date is_latest).1

-- ## Standings display and threshold flag

/-- The sequence of rows actually printed by `check_participants`
(`lottery.py` lines 283-322, `drawing.py` lines 187-222): the highest
scorers (all rows whose `total_correct` equals the maximum, i.e. the first
sorted row's total) followed by the optional prefix-filtered family view
(skipped when the configured filter is absent or empty, matching Python's
falsiness test `if filter_family and name.startswith(...)`). -/
def displayedRows (roster : List Participant) (p : Progress) (winning : List Int)
    (is_latest : Bool) (filter_family : Option String) : List Row :=
  let rows := sortResults (resultRows roster p winning is_latest)
  match rows with
  | [] => []
  | top :: _ =>
      rows.filter (fun r => rowTotal r = rowTotal top) ++
        (match filter_family with
          | some f => if f.isEmpty then [] else rows.filter (fun r => (rowName r).startsWith f)
          | none => [])

/-- Each displayed row together with its threshold-winner flag: the
`WINNER!` line is printed exactly when `total_correct >= 10`
(`lottery.py` lines 303-304 and 321-322, `drawing.py` lines 209-210 and
221-222). -/
def reportFlags (roster : List Participant) (p : Progress) (winning : List Int)
    (is_latest : Bool) (filter_family : Option String) : List (Row × Bool) :=
  (displayedRows roster p winning is_latest filter_family).map
    (fun r => (r, decide (10 ≤ rowTotal r)))

-- ## Processing unprocessed ledger draws

/-- `LotteryTracker.get_unprocessed_draws` (`drawing.py` lines 64-76): the
ledger rows (date, 6 numbers) whose date is not yet in `processed_draws`,
each as `(sorted(numbers), date)`, in ledger order. -/
def get_unprocessed_draws (ledger : List (String × List Int)) (p : Progress) :
    List (List Int × String) :=
  (ledger.filter (fun r => !(p.processed_draws.contains r.1))).map
    (fun r => (pysorted r.2, r.1))

/-- One fold performed by an invocation: draw date, the `is_latest` flag it
was folded with, and the sorted report rows it produced. -/
abbrev Fold := String × Bool × List Row

/-- The loop of `process_all_unprocessed_draws` (`drawing.py` lines 233-240):
fold the unprocessed draws in order, with `is_latest = (i == len - 1)`,
threading the Progress Store through. -/
def processFrom (roster : List Participant) (p : Progress) :
    List (List Int × String) → Progress × List Fold
  | [] => (p, [])
  | [(nums, d)] =>
      let r := check_participants roster p nums d true
      (r.1, [(d, true, r.2)])
  | (nums, d) :: rest =>
      let r := check_participants roster p nums d false
      let rec_rest := processFrom roster r.1 rest
      (rec_rest.1, (d, false, r.2) :: rec_rest.2)

/-- `process_all_unprocessed_draws(tracker)` (`drawing.py` lines 233-240). -/
def process_all_unprocessed_draws (roster : List Participant)
    (ledger : List (String × List Int)) (p : Progress) : Progress × List Fold :=
  processFrom roster p (get_unprocessed_draws ledger p)

/-- `drawing.py main` (lines 252-276) as a fold sequence: first process all
unprocessed ledger draws; then, if the user entered a draw, append it (date
computed by `add_to_trekking`, passed here as `new_date`) and fold it with
`is_latest = True`; otherwise, if no unprocessed draws were found, re-fold
the latest ledger draw with `is_latest = True`. -/
def main_folds (roster : List Participant) (ledger : List (String × List Int))
    (p : Progress) (input : Option (List Int)) (new_date : String) :
    Progress × List Fold :=
  let r1 := process_all_unprocessed_draws roster ledger p
  match input with
  | some numbers =>
      let r2 := check_participants roster r1.1 numbers new_date true
      (r2.1, r1.2 ++ [(new_date, true, r2.2)])
  | none =>
      if r1.2.isEmpty then
        match ledger.getLast? with
        | some (d, nums) =>
            let r2 := check_participants roster r1.1 (pysorted nums) d true
            (r2.1, [(d, true, r2.2)])
        | none => (r1.1, [])
      else r1

-- ## Interactive draw input validation

/-- The validation chain of `parse_input` (`drawing.py` lines 99-111,
`lottery.py` lines 163-175) on an already-parsed number list: exactly 6
numbers, each in `[1, 45]`, no duplicates (`len(set(numbers)) != 6`);
a valid list is returned sorted. -/
def validate_numbers (numbers : List Int) : Option (List Int) :=
  if numbers.length ≠ 6 then none
  else if ¬ (numbers.all fun n => decide (1 ≤ n) && decide (n ≤ 45)) then none
  else if numbers.dedup.length ≠ 6 then none
  else some (pysorted numbers)

/-- One line typed at the `parse_input` prompt: empty (quit), not parseable
as integers (`ValueError`), or a list of integers. -/
inductive InputLine
  | empty : InputLine
  | unparseable : InputLine
  | nums (l : List Int) : InputLine
deriving DecidableEq

/-- `parse_input` (`drawing.py` lines 92-114, `lottery.py` lines 155-178)
driven by a stream of input lines: an empty line returns `None` (outer
`some none`); an unparseable or invalid line re-prompts (recursion on the
rest of the stream); a valid line returns its sorted numbers.  The result
is `none` only if the (finite model of the) stream runs out. -/
def parse_input : List InputLine → Option (Option (List Int))
  | [] => none
  | InputLine.empty :: _ => some none
  | InputLine.unparseable :: rest => parse_input rest
  | InputLine.nums l :: rest =>
      match validate_numbers l with
      | some r => some (some r)
      | none => parse_input rest

-- ## Loading the persisted Progress Store

/-- The outcome of reading `data/lottery_progress.json`: the file is absent,
the read or parse fails (`json.JSONDecodeError`, `IOError`), or it parses to
a players map and a processed-draws list. -/
inductive LoadOutcome
  | noFile : LoadOutcome
  | malformed : LoadOutcome
  | parsed (players : List (String × PlayerEntry)) (processed : List String) : LoadOutcome
deriving DecidableEq

/-- Python `dict.update`: write every binding of `upd` into `base`. -/
def dictUpdate (base upd : List (String × PlayerEntry)) : List (String × PlayerEntry) :=
  upd.foldl (fun b r => setPlayer b r.1 r.2) base

/-- `load_progress` (`lottery.py` lines 40-52, `drawing.py` lines 23-35):
starting from the empty initial Progress Store, merge a successfully parsed
file into it; on a read/parse error print a warning ("Error loading progress
file", "Starting with fresh progress file") and keep the empty store.  The
returned flag records whether the warning was emitted. -/
def load_progress : LoadOutcome → Progress × Bool
  | LoadOutcome.noFile => (initialProgress, false)
  | LoadOutcome.malformed => (initialProgress, true)
  | LoadOutcome.parsed players processed =>
      ({ players := dictUpdate initialProgress.players players,
         processed_draws := processed }, false)

-- ## Future-winner projection

/-- `LotteryManager.get_missing_numbers_info` (`lottery.py` lines 340-379):
find the player's roster row; `missing = set(chosen) - set(correct)`;
count every *other* participant whose accumulated total plus the overlap of
their chosen numbers with `missing` reaches 10.  Missing numbers are
returned sorted.  The `winning_numbers` argument is accepted and unused,
as in the source. -/
def get_missing_numbers_info (roster : List Participant) (p : Progress)
    (player_name : String) (winning_numbers : List Int) : Option (List Int × Nat) :=
  match roster.find? (fun q => q.name = player_name) with
  | none => none
  | some player =>
      let current_numbers := (correctOf p.players player_name).dedup
      let chosen_numbers := player.numbers.dedup
      let missing_numbers := chosen_numbers.filter (fun n => n ∉ current_numbers)
      let potential_winners := roster.countP (fun q =>
        decide (q.name ≠ player_name) &&
          decide (10 ≤ (correctOf p.players q.name).dedup.length +
            (missing_numbers.filter (fun n => n ∈ q.numbers)).length))
      some (pysorted missing_numbers, potential_winners)

-- ## Derived definitions and concrete instances used in the statements

/-- The accumulated-matches set of a player, as a finite set. -/
def entrySet (ps : List (String × PlayerEntry)) (n : String) : Finset Int :=
  (correctOf ps n).toFinset

/-- The fold of `update_progress` over a whole `player_results` list. -/
def applyResults (ps : List (String × PlayerEntry)) (prs : List (String × List Int)) :
    List (String × PlayerEntry) :=
  prs.foldl (fun ps r => updateOnePlayer ps r.1 r.2) ps

/-- A player entry in the normal form `update_progress` writes: its list is
ascending, duplicate-free, and its `total_correct` is the list's length. -/
def normalEntry (e : PlayerEntry) : Prop :=
  e.correct_numbers.Sorted (· ≤ ·) ∧ e.correct_numbers.Nodup ∧
    e.total_correct = e.correct_numbers.length

/-- The player is present in the map with a normal-form entry. -/
def presentNormal (ps : List (String × PlayerEntry)) (n : String) : Prop :=
  ∃ e, lookupPlayer ps n = some e ∧ normalEntry e

/-- A sequence of folds: each element is (winning numbers, draw date,
is_latest flag). -/
def foldDraws (roster : List Participant) (p : Progress) :
    List (List Int × String × Bool) → Progress
  | [] => p
  | (w, d, l) :: rest => foldDraws roster (foldDraw roster p w d l) rest

/-- The two-participant roster used to exhibit the tie-breaking behaviour:
identical chosen numbers, enumeration order Alice then Bob. -/
def rosterTie : List Participant :=
  [⟨"Alice", [1, 2, 3, 4, 5, 6, 7, 8, 9, 10]⟩, ⟨"Bob", [1, 2, 3, 4, 5, 6, 7, 8, 9, 10]⟩]

/-- A progress state in which Ann has already matched 4 of her numbers. -/
def progressC6 : Progress := ⟨[("Ann", ⟨4, [3, 5, 9, 12]⟩)], ["d0"]⟩

/-- Ann's roster row for the threshold example. -/
def rosterC6 : List Participant := [⟨"Ann", [5, 3, 9, 12, 20, 21, 30, 31, 40, 41]⟩]

/-- The single (row, flag) pair displayed after the draw that completes Ann's
ten numbers. -/
def c6Pair : Row × Bool :=
  (reportFlags rosterC6 progressC6 [20, 21, 30, 31, 40, 41] true none).headI

/-- The spec's defining equation for the projection, for comparison with the
implementation: `missing_numbers = chosen_numbers(participant) \
accumulated_matches(participant)`. -/
def spec_missing_numbers (chosen accumulated : Finset Int) : Finset Int :=
  chosen \ accumulated

/-- The spec's potential-winner condition, for comparison with the
implementation: `total_correct(p) + |missing ∩ chosen_numbers(p)| >= 10`. -/
def spec_potential_winner (missing : Finset Int) (q_total : Nat)
    (q_chosen : Finset Int) : Prop :=
  10 ≤ q_total + (missing ∩ q_chosen).card

instance (missing : Finset Int) (q_total : Nat) (q_chosen : Finset Int) :
    Decidable (spec_potential_winner missing q_total q_chosen) :=
  inferInstanceAs (Decidable (10 ≤ q_total + (missing ∩ q_chosen).card))

/-- The spec's own projection example: P holds 1..10 and has matched {1,2,3};
Q holds {4,5,6,7,8,20,21,22,23,24} and has 7 accumulated matches. -/
def rosterC5 : List Participant :=
  [⟨"P", [1, 2, 3, 4, 5, 6, 7, 8, 9, 10]⟩, ⟨"Q", [4, 5, 6, 7, 8, 20, 21, 22, 23, 24]⟩]

/-- Progress for the projection example. -/
def progressC5 : Progress :=
  ⟨[("P", ⟨3, [1, 2, 3]⟩), ("Q", ⟨7, [20, 21, 22, 23, 24, 30, 31]⟩)], ["d0"]⟩

/-- The C10 invariant for one participant: whenever the participant has an
entry in the players map, its stored list is a subset of the participant's
chosen numbers, sorted ascending, duplicate-free, and `total_correct` is at
most 10. -/
def entryInv (pt : Participant) (ps : List (String × PlayerEntry)) : Prop :=
  ∀ e, lookupPlayer ps pt.name = some e →
    e.correct_numbers.toFinset ⊆ pt.numbers.toFinset ∧
      e.correct_numbers.Sorted (· ≤ ·) ∧ e.correct_numbers.Nodup ∧
      e.total_correct ≤ 10

/-- The roster and ledger for evaluating `main` with a backlog plus a
manually entered draw. -/
def rosterC3 : List Participant := [⟨"Ann", [5, 3, 9, 12, 20, 21, 30, 31, 40, 41]⟩]

/-- A ledger holding two draws not yet in the Progress Store. -/
def ledgerC3 : List (String × List Int) :=
  [("01-Jan-25", [1, 2, 3, 4, 5, 6]), ("08-Jan-25", [7, 8, 9, 10, 11, 12])]

-- ## Lemmas about the players-map model

theorem strLtB_iff (a b : String) : strLtB a b = true ↔ a < b := by
  rw [String.lt_iff_toList_lt]
  simp [strLtB]

theorem rowLtB_iff (a b : Row) : rowLtB a b = true ↔ rowKey a < rowKey b := by
  simp only [rowKey, Prod.Lex.lt_iff, rowLtB, Bool.or_eq_true, Bool.and_eq_true,
    decide_eq_true_eq, strLtB_iff]

theorem rowGe_iff (a b : Row) : rowGe a b ↔ rowKey b ≤ rowKey a := by
  unfold rowGe
  rw [← not_lt, ← rowLtB_iff]
  cases h : rowLtB a b <;> simp [h]

instance : IsTotal Row rowGe := by
  constructor
  intro a b
  rw [rowGe_iff, rowGe_iff]
  exact le_total (rowKey b) (rowKey a)

instance : IsTrans Row rowGe := by
  constructor
  intro a b c hab hbc
  rw [rowGe_iff] at *
  exact le_trans hbc hab


theorem lookupPlayer_setPlayer_same (ps : List (String × PlayerEntry)) (n : String)
    (e : PlayerEntry) : lookupPlayer (setPlayer ps n e) n = some e := by
  induction ps with
  | nil => simp [setPlayer, lookupPlayer]
  | cons kv rest ih =>
      by_cases h : kv.1 = n
      · simp [setPlayer, lookupPlayer, h]
      · simp [setPlayer, lookupPlayer, h, ih]

theorem lookupPlayer_setPlayer_other (ps : List (String × PlayerEntry)) (m : String)
    (e : PlayerEntry) (n : String) (h : m ≠ n) :
    lookupPlayer (setPlayer ps m e) n = lookupPlayer ps n := by
  induction ps with
  | nil => simp [setPlayer, lookupPlayer, h]
  | cons kv rest ih =>
      obtain ⟨k, v⟩ := kv
      by_cases hk : k = m
      · subst hk
        simp [setPlayer, lookupPlayer, h]
      · by_cases hn : k = n
        · have hnm : ¬ n = m := fun hh => h hh.symm
          simp [setPlayer, lookupPlayer, hk, hn, hnm]
        · simp [setPlayer, lookupPlayer, hk, hn, ih]

theorem setPlayer_lookup_self (ps : List (String × PlayerEntry)) (n : String)
    (e : PlayerEntry) (h : lookupPlayer ps n = some e) : setPlayer ps n e = ps := by
  induction ps with
  | nil => simp [lookupPlayer] at h
  | cons kv rest ih =>
      obtain ⟨k, v⟩ := kv
      by_cases hk : k = n
      · simp only [lookupPlayer, hk, if_true, Option.some.injEq] at h
        simp [setPlayer, hk, ← h]
      · simp only [lookupPlayer, hk, if_false] at h
        simp [setPlayer, hk, ih h]

theorem mem_setPlayer (ps : List (String × PlayerEntry)) (n : String) (e : PlayerEntry)
    (kv : String × PlayerEntry) (h : kv ∈ setPlayer ps n e) : kv ∈ ps ∨ kv.2 = e := by
  induction ps with
  | nil =>
      simp [setPlayer] at h
      right
      rw [h]
  | cons hd rest ih =>
      by_cases hk : hd.1 = n
      · simp only [setPlayer, if_pos hk, List.mem_cons] at h
        rcases h with h | h
        · right
          rw [h]
        · left
          exact List.mem_cons_of_mem hd h
      · simp only [setPlayer, if_neg hk, List.mem_cons] at h
        rcases h with h | h
        · left
          exact h ▸ List.mem_cons_self hd rest
        · rcases ih h with h' | h'
          · exact Or.inl (List.mem_cons_of_mem hd h')
          · exact Or.inr h'

theorem correctOf_updateOnePlayer_same (ps : List (String × PlayerEntry)) (n : String)
    (nums : List Int) :
    correctOf (updateOnePlayer ps n nums) n = pysorted ((correctOf ps n ++ nums).dedup) := by
  simp [updateOnePlayer, correctOf, lookupPlayer_setPlayer_same]

theorem correctOf_updateOnePlayer_other (ps : List (String × PlayerEntry)) (m : String)
    (nums : List Int) (n : String) (h : m ≠ n) :
    correctOf (updateOnePlayer ps m nums) n = correctOf ps n := by
  simp [updateOnePlayer, correctOf, lookupPlayer_setPlayer_other _ _ _ _ h]

theorem toFinset_pysorted (l : List Int) : (pysorted l).toFinset = l.toFinset := by
  apply Finset.ext
  intro a
  simp only [List.mem_toFinset]
  exact (List.perm_insertionSort _ l).mem_iff

theorem toFinset_dedup (l : List Int) : l.dedup.toFinset = l.toFinset := by
  apply Finset.ext
  intro a
  simp [List.mem_dedup]

theorem nodup_pysorted_dedup (l : List Int) : (pysorted l.dedup).Nodup :=
  (List.perm_insertionSort _ l.dedup).symm.nodup (List.nodup_dedup l)

theorem sorted_pysorted (l : List Int) : (pysorted l).Sorted (· ≤ ·) :=
  List.sorted_insertionSort _ l

theorem length_pysorted (l : List Int) : (pysorted l).length = l.length :=
  (List.perm_insertionSort _ l).length_eq


theorem entrySet_updateOnePlayer_same (ps : List (String × PlayerEntry)) (n : String)
    (nums : List Int) :
    entrySet (updateOnePlayer ps n nums) n = entrySet ps n ∪ nums.toFinset := by
  unfold entrySet
  rw [correctOf_updateOnePlayer_same, toFinset_pysorted, toFinset_dedup,
    List.toFinset_append]

theorem entrySet_updateOnePlayer_mono (ps : List (String × PlayerEntry)) (m : String)
    (nums : List Int) (n : String) :
    entrySet ps n ⊆ entrySet (updateOnePlayer ps m nums) n := by
  by_cases h : m = n
  · subst h
    rw [entrySet_updateOnePlayer_same]
    exact Finset.subset_union_left
  · unfold entrySet
    rw [correctOf_updateOnePlayer_other _ _ _ _ h]


theorem applyResults_nil (ps : List (String × PlayerEntry)) : applyResults ps [] = ps := rfl

theorem applyResults_cons (ps : List (String × PlayerEntry)) (r : String × List Int)
    (prs : List (String × List Int)) :
    applyResults ps (r :: prs) = applyResults (updateOnePlayer ps r.1 r.2) prs := rfl

theorem update_progress_players (p : Progress) (prs : List (String × List Int))
    (d : String) : (update_progress p prs d).players = applyResults p.players prs := rfl

theorem entrySet_applyResults_mono (prs : List (String × List Int))
    (ps : List (String × PlayerEntry)) (n : String) :
    entrySet ps n ⊆ entrySet (applyResults ps prs) n := by
  induction prs generalizing ps with
  | nil => rw [applyResults_nil]
  | cons r rest ih =>
      rw [applyResults_cons]
      exact (entrySet_updateOnePlayer_mono ps r.1 r.2 n).trans (ih _)

theorem entrySet_applyResults_mem (prs : List (String × List Int))
    (ps : List (String × PlayerEntry)) (n : String) (nums : List Int)
    (h : (n, nums) ∈ prs) : nums.toFinset ⊆ entrySet (applyResults ps prs) n := by
  induction prs generalizing ps with
  | nil => simp at h
  | cons r rest ih =>
      rw [applyResults_cons]
      rcases List.mem_cons.1 h with h' | h'
      · cases h'
        refine Finset.Subset.trans ?_ (entrySet_applyResults_mono rest _ n)
        rw [entrySet_updateOnePlayer_same]
        exact Finset.subset_union_right
      · exact ih _ h'


theorem presentNormal_updateOnePlayer_self (ps : List (String × PlayerEntry))
    (n : String) (nums : List Int) : presentNormal (updateOnePlayer ps n nums) n := by
  refine ⟨_, lookupPlayer_setPlayer_same _ _ _, ?_, ?_, ?_⟩
  · exact sorted_pysorted _
  · exact nodup_pysorted_dedup _
  · exact (length_pysorted _).symm

theorem presentNormal_updateOnePlayer_preserve (ps : List (String × PlayerEntry))
    (m : String) (nums : List Int) (n : String) (h : presentNormal ps n) :
    presentNormal (updateOnePlayer ps m nums) n := by
  by_cases hm : m = n
  · subst hm
    exact presentNormal_updateOnePlayer_self ps m nums
  · obtain ⟨e, he, hn⟩ := h
    exact ⟨e, by rw [updateOnePlayer, lookupPlayer_setPlayer_other _ _ _ _ hm]; exact he, hn⟩

theorem presentNormal_applyResults_preserve (prs : List (String × List Int))
    (ps : List (String × PlayerEntry)) (n : String) (h : presentNormal ps n) :
    presentNormal (applyResults ps prs) n := by
  induction prs generalizing ps with
  | nil => exact h
  | cons r rest ih =>
      rw [applyResults_cons]
      exact ih _ (presentNormal_updateOnePlayer_preserve _ _ _ _ h)

theorem presentNormal_applyResults_mem (prs : List (String × List Int))
    (ps : List (String × PlayerEntry)) (n : String) (nums : List Int)
    (h : (n, nums) ∈ prs) : presentNormal (applyResults ps prs) n := by
  induction prs generalizing ps with
  | nil => simp at h
  | cons r rest ih =>
      rw [applyResults_cons]
      rcases List.mem_cons.1 h with h' | h'
      · cases h'
        exact presentNormal_applyResults_preserve rest _ n
          (presentNormal_updateOnePlayer_self ps n nums)
      · exact ih _ h'

theorem updateOnePlayer_absorb (ps : List (String × PlayerEntry)) (n : String)
    (nums : List Int) (hsub : nums.toFinset ⊆ entrySet ps n)
    (hpn : presentNormal ps n) : updateOnePlayer ps n nums = ps := by
  obtain ⟨e, he, hs, hd, ht⟩ := hpn
  have hc : correctOf ps n = e.correct_numbers := by simp [correctOf, he]
  have hfin : (pysorted ((correctOf ps n ++ nums).dedup)).toFinset =
      e.correct_numbers.toFinset := by
    rw [toFinset_pysorted, toFinset_dedup, List.toFinset_append, hc]
    apply Finset.union_eq_left.mpr
    rw [← hc]
    exact hsub
  have hperm : (pysorted ((correctOf ps n ++ nums).dedup)).Perm e.correct_numbers :=
    List.perm_of_nodup_nodup_toFinset_eq (nodup_pysorted_dedup _) hd hfin
  have hlist : pysorted ((correctOf ps n ++ nums).dedup) = e.correct_numbers :=
    List.eq_of_perm_of_sorted hperm (sorted_pysorted _) hs
  have hlen : ((correctOf ps n ++ nums).dedup).length = e.total_correct := by
    rw [ht, ← hlist, length_pysorted]
  have hentry : (⟨((correctOf ps n ++ nums).dedup).length,
      pysorted ((correctOf ps n ++ nums).dedup)⟩ : PlayerEntry) = e := by
    obtain ⟨et, ec⟩ := e
    simp only [PlayerEntry.mk.injEq]
    exact ⟨hlen, hlist⟩
  show setPlayer ps n ⟨((correctOf ps n ++ nums).dedup).length,
      pysorted ((correctOf ps n ++ nums).dedup)⟩ = ps
  rw [hentry]
  exact setPlayer_lookup_self ps n e he

theorem applyResults_absorb (prs : List (String × List Int))
    (ps : List (String × PlayerEntry))
    (h : ∀ r ∈ prs, (r : String × List Int).2.toFinset ⊆ entrySet ps r.1 ∧
      presentNormal ps r.1) : applyResults ps prs = ps := by
  induction prs with
  | nil => rfl
  | cons r rest ih =>
      have h1 := h r (List.mem_cons_self r rest)
      rw [applyResults_cons, updateOnePlayer_absorb ps r.1 r.2 h1.1 h1.2]
      exact ih (fun r' hr' => h r' (List.mem_cons_of_mem r hr'))

theorem mem_update_processed (p : Progress) (prs : List (String × List Int))
    (d : String) : d ∈ (update_progress p prs d).processed_draws := by
  unfold update_progress
  by_cases h : d ∈ p.processed_draws <;> simp [h]

theorem mem_applyResults (prs : List (String × List Int))
    (ps : List (String × PlayerEntry)) (kv : String × PlayerEntry)
    (h : kv ∈ applyResults ps prs) : kv ∈ ps ∨ normalEntry kv.2 := by
  induction prs generalizing ps with
  | nil => exact Or.inl h
  | cons r rest ih =>
      rw [applyResults_cons] at h
      rcases ih _ h with h' | h'
      · unfold updateOnePlayer at h'
        rcases mem_setPlayer _ _ _ _ h' with h'' | h''
        · exact Or.inl h''
        · refine Or.inr ?_
          rw [h'']
          exact ⟨sorted_pysorted _, nodup_pysorted_dedup _, (length_pysorted _).symm⟩
      · exact Or.inr h'


-- ## C1: idempotence of folding the same draw

/-- C1: folding the same draw twice (check_participants followed by
update_progress, with the same winning numbers and draw date) yields exactly
the same players map and processed-draws log as folding it once, for every
Progress Store state. -/
theorem fold_idempotent (roster : List Participant) (p : Progress) (winning : List Int)
    (draw_date : String) (is_latest : Bool) :
    foldDraw roster (foldDraw roster p winning draw_date is_latest) winning draw_date
        is_latest =
      foldDraw roster p winning draw_date is_latest := by
  show update_progress (update_progress p (playerResults roster winning) draw_date)
      (playerResults roster winning) draw_date =
    update_progress p (playerResults roster winning) draw_date
  have hplayers :
      applyResults (applyResults p.players (playerResults roster winning))
          (playerResults roster winning) =
        applyResults p.players (playerResults roster winning) := by
    apply applyResults_absorb
    intro r hr
    have hmem : (r.1, r.2) ∈ playerResults roster winning := by
      simpa using hr
    exact ⟨entrySet_applyResults_mem _ _ _ _ hmem,
      presentNormal_applyResults_mem _ _ _ _ hmem⟩
  have hmemd := mem_update_processed p (playerResults roster winning) draw_date
  unfold update_progress at *
  simp only [Progress.mk.injEq]
  exact ⟨hplayers, by simp [hmemd]⟩

-- ## C2: monotone accumulation

/-- C2: no fold ever removes a number from a participant's accumulated set of
correct numbers: after one fold the set is a superset of the set before, its
cardinality is non-decreasing, and across any sequence of folds the set only
grows. -/
theorem accumulated_matches_monotone (roster : List Participant) (p : Progress)
    (winning : List Int) (draw_date : String) (is_latest : Bool) (name : String)
    (draws : List (List Int × String × Bool)) :
    entrySet p.players name ⊆
        entrySet (foldDraw roster p winning draw_date is_latest).players name ∧
      (entrySet p.players name).card ≤
        (entrySet (foldDraw roster p winning draw_date is_latest).players name).card ∧
      entrySet p.players name ⊆ entrySet (foldDraws roster p draws).players name := by
  have hone : ∀ q : Progress, ∀ w d l,
      entrySet q.players name ⊆ entrySet (foldDraw roster q w d l).players name :=
    fun q w d l => entrySet_applyResults_mono (playerResults roster w) q.players name
  refine ⟨hone p winning draw_date is_latest,
    Finset.card_le_card (hone p winning draw_date is_latest), ?_⟩
  induction draws generalizing p with
  | nil => exact Finset.Subset.refl _
  | cons dr rest ih =>
      obtain ⟨w, d, l⟩ := dr
      exact (hone p w d l).trans (ih _)

-- ## C7: persisted total_correct equals the list's size

/-- C7: if every player entry of the Progress Store has `total_correct` equal
to the length of its `correct_numbers` list, this still holds for every entry
after any fold; entries rewritten by the fold always satisfy it. -/
theorem total_correct_matches_list (roster : List Participant) (p : Progress)
    (winning : List Int) (draw_date : String) (is_latest : Bool)
    (h : ∀ kv ∈ p.players,
      (kv : String × PlayerEntry).2.total_correct = kv.2.correct_numbers.length) :
    ∀ kv ∈ (foldDraw roster p winning draw_date is_latest).players,
      (kv : String × PlayerEntry).2.total_correct = kv.2.correct_numbers.length := by
  intro kv hkv
  rcases mem_applyResults _ _ _ hkv with h' | h'
  · exact h kv h'
  · exact h'.2.2

-- ## C4: report ordering

/-- C4 (amended): the standings report is a permutation of the computed rows,
sorted descending by the full Python tuple `(total_correct, newly_correct,
name, number_str)`: consecutive rows satisfy total descending, then newly
descending, then name descending (lexicographically) — so ties in
`(total_correct, newly_correct)` appear in descending-name order, not in
Roster enumeration order, though the output is still deterministic. -/
theorem standings_sorted_descending (rows : List Row) :
    (sortResults rows).Perm rows ∧
      (sortResults rows).Pairwise (fun a b =>
        rowTotal b < rowTotal a ∨ (rowTotal a = rowTotal b ∧
          (rowNew b < rowNew a ∨ (rowNew a = rowNew b ∧ rowName b ≤ rowName a)))) := by
  refine ⟨List.perm_insertionSort _ rows, ?_⟩
  have hs : (sortResults rows).Pairwise rowGe := List.sorted_insertionSort rowGe rows
  refine hs.imp ?_
  intro a b hab
  rw [rowGe_iff] at hab
  simp only [rowKey] at hab
  rcases (Prod.Lex.le_iff _ _).1 hab with h | ⟨h1, h2⟩
  · exact Or.inl h
  · refine Or.inr ⟨h1.symm, ?_⟩
    rcases (Prod.Lex.le_iff _ _).1 h2 with h | ⟨h3, h4⟩
    · exact Or.inl h
    · refine Or.inr ⟨h3.symm, ?_⟩
      rcases (Prod.Lex.le_iff _ _).1 h4 with h | ⟨h5, _⟩
      · exact le_of_lt h
      · exact le_of_eq h5


set_option maxRecDepth 8192 in
/-- C4 counterexample: Alice and Bob have equal `total_correct` (0) and equal
`newly_correct` (0), the Roster enumerates Alice before Bob, yet the sorted
report lists Bob before Alice — ties are broken by name descending, not kept
in Roster enumeration order. -/
theorem standings_tie_breaks_by_name_not_roster_order :
    rosterTie.map Participant.name = ["Alice", "Bob"] ∧
      (check_participants rosterTie initialProgress [11, 12, 13, 14, 15, 16] "d1"
          true).2.map rowName = ["Bob", "Alice"] ∧
      (check_participants rosterTie initialProgress [11, 12, 13, 14, 15, 16] "d1"
          true).2.map rowTotal = [0, 0] ∧
      (check_participants rosterTie initialProgress [11, 12, 13, 14, 15, 16] "d1"
          true).2.map rowNew = [0, 0] := by decide

-- ## C6: the threshold-winner flag

/-- C6: in the printed report, a displayed participant is flagged a threshold
winner exactly when their `total_correct` is at least 10; in particular a
total of exactly 10 is flagged and a total of 9 is not. -/
theorem threshold_winner_flag (roster : List Participant) (p : Progress)
    (winning : List Int) (is_latest : Bool) (filter_family : Option String)
    (r : Row) (flag : Bool)
    (h : (r, flag) ∈ reportFlags roster p winning is_latest filter_family) :
    (flag = true ↔ 10 ≤ rowTotal r) ∧ (rowTotal r = 10 → flag = true) ∧
      (rowTotal r = 9 → flag = false) := by
  unfold reportFlags at h
  rcases List.mem_map.1 h with ⟨r', _, heq⟩
  have h1 : r' = r := congrArg Prod.fst heq
  have h2 : decide (10 ≤ rowTotal r') = flag := congrArg Prod.snd heq
  subst h1
  subst h2
  refine ⟨by simp, fun ht => by simp [ht], fun ht => by simp [ht]⟩


set_option maxRecDepth 8192 in
theorem threshold_winner_flag_witness :
    (c6Pair.2 = true ↔ 10 ≤ rowTotal c6Pair.1) ∧
      (rowTotal c6Pair.1 = 10 → c6Pair.2 = true) ∧
      (rowTotal c6Pair.1 = 9 → c6Pair.2 = false) :=
  threshold_winner_flag rosterC6 progressC6 [20, 21, 30, 31, 40, 41] true none
    c6Pair.1 c6Pair.2 (by decide)

-- ## C7 witness

theorem total_correct_matches_list_witness :
    (("Ann", (⟨2, [3, 9]⟩ : PlayerEntry)) : String × PlayerEntry).2.total_correct =
      (("Ann", (⟨2, [3, 9]⟩ : PlayerEntry)) : String × PlayerEntry).2.correct_numbers.length :=
  total_correct_matches_list [⟨"Ann", [5, 3, 9, 12, 20, 21, 30, 31, 40, 41]⟩]
    initialProgress [3, 9, 44, 1, 2, 7] "01-Jan-25" true
    (by simp [initialProgress]) ("Ann", ⟨2, [3, 9]⟩) (by decide)

-- ## C8: recovery from a corrupt Progress Store

/-- C8: when the persisted Progress Store is unreadable or malformed,
`load_progress` reports the warning and continues with the empty Progress
Store (empty players map, empty processed-draws log) instead of failing. -/
theorem load_malformed_recovers_empty :
    load_progress LoadOutcome.malformed = (initialProgress, true) ∧
      initialProgress.players = [] ∧ initialProgress.processed_draws = [] :=
  ⟨rfl, rfl, rfl⟩

-- ## C9: input-boundary validation

theorem dedup_length_ne_of_not_nodup (ns : List Int) (h : ¬ ns.Nodup) :
    ns.dedup.length ≠ ns.length := by
  intro hlen
  apply h
  have := List.Sublist.eq_of_length (List.dedup_sublist ns) hlen
  rw [← this]
  exact List.nodup_dedup ns

theorem validate_numbers_none (ns : List Int)
    (h : ns.length ≠ 6 ∨ ¬ (∀ n ∈ ns, 1 ≤ n ∧ n ≤ 45) ∨ ¬ ns.Nodup) :
    validate_numbers ns = none := by
  unfold validate_numbers
  rcases h with h | h | h
  · simp [h]
  · have hall : ¬ (ns.all fun n => decide (1 ≤ n) && decide (n ≤ 45)) := by
      simp only [List.all_eq_true, Bool.and_eq_true, decide_eq_true_eq]
      exact fun hc => h (fun n hn => hc n hn)
    by_cases h6 : ns.length ≠ 6 <;> simp [h6, hall]
  · by_cases h6 : ns.length ≠ 6
    · simp [h6]
    · push_neg at h6
      have hd : ns.dedup.length ≠ 6 := by
        rw [← h6]
        exact dedup_length_ne_of_not_nodup ns h
      by_cases hall : (ns.all fun n => decide (1 ≤ n) && decide (n ≤ 45)) = true <;>
        simp [h6, hall, hd]

theorem validate_numbers_some (ns r : List Int) (h : validate_numbers ns = some r) :
    ns.length = 6 ∧ (∀ n ∈ ns, 1 ≤ n ∧ n ≤ 45) ∧ ns.Nodup ∧ r = pysorted ns ∧
      r.Perm ns := by
  unfold validate_numbers at h
  by_cases h6 : ns.length ≠ 6
  · simp [h6] at h
  · push_neg at h6
    by_cases hall : (ns.all fun n => decide (1 ≤ n) && decide (n ≤ 45)) = true
    · by_cases hd : ns.dedup.length ≠ 6
      · simp [h6, hall, hd] at h
      · push_neg at hd
        simp only [h6, hall, hd, not_true_eq_false, if_false, ite_not, if_true,
          Option.some.injEq] at h
        have hnd : ns.Nodup := by
          have heq : ns.dedup = ns :=
            List.Sublist.eq_of_length (List.dedup_sublist ns) (by rw [hd, h6])
          rw [← heq]
          exact List.nodup_dedup ns
        refine ⟨h6, ?_, hnd, h.symm, ?_⟩
        · intro n hn
          have := List.all_eq_true.1 hall n hn
          simpa using this
        · rw [← h]
          exact List.perm_insertionSort _ ns
    · simp [h6, hall] at h

/-- C9: an entered draw whose number list has length other than 6, a number
outside [1, 45], or a duplicate is rejected and the user is re-prompted (the
very same parse result as if that line had never been typed), so it is never
returned to the caller that appends to the ledger and folds; the result of a
successful parse always comes from a valid line, as exactly its 6 numbers in
sorted order. -/
theorem parse_input_validation :
    (∀ ns rest, (ns.length ≠ 6 ∨ ¬ (∀ n ∈ ns, 1 ≤ n ∧ n ≤ 45) ∨ ¬ ns.Nodup) →
        parse_input (InputLine.nums ns :: rest) = parse_input rest) ∧
      (∀ stream r, parse_input stream = some (some r) →
        ∃ ns, InputLine.nums ns ∈ stream ∧ ns.length = 6 ∧
          (∀ n ∈ ns, 1 ≤ n ∧ n ≤ 45) ∧ ns.Nodup ∧ r = pysorted ns ∧ r.Perm ns) := by
  constructor
  · intro ns rest h
    simp [parse_input, validate_numbers_none ns h]
  · intro stream
    induction stream with
    | nil => intro r h; simp [parse_input] at h
    | cons line rest ih =>
        intro r h
        cases line with
        | empty => simp [parse_input] at h
        | unparseable =>
            obtain ⟨ns, hmem, hrest⟩ := ih r (by simpa [parse_input] using h)
            exact ⟨ns, List.mem_cons_of_mem _ hmem, hrest⟩
        | nums l =>
            rw [parse_input] at h
            cases hv : validate_numbers l with
            | some r' =>
                rw [hv] at h
                simp only [Option.some.injEq] at h
                obtain ⟨h6, hrange, hnd, hsort, hperm⟩ := validate_numbers_some l r' hv
                exact ⟨l, List.mem_cons_self _ _, h6, hrange, hnd,
                  h ▸ hsort, h ▸ hperm⟩
            | none =>
                rw [hv] at h
                obtain ⟨ns, hmem, hrest⟩ := ih r h
                exact ⟨ns, List.mem_cons_of_mem _ hmem, hrest⟩

theorem parse_input_validation_witness :
    parse_input [InputLine.nums [1, 1, 2, 3, 4, 5], InputLine.empty] =
        parse_input [InputLine.empty] ∧
      (∃ ns, InputLine.nums ns ∈ [InputLine.nums [6, 5, 4, 3, 2, 1]] ∧ ns.length = 6 ∧
        (∀ n ∈ ns, 1 ≤ n ∧ n ≤ 45) ∧ ns.Nodup ∧
        [1, 2, 3, 4, 5, 6] = pysorted ns ∧ ([1, 2, 3, 4, 5, 6] : List Int).Perm ns) :=
  ⟨parse_input_validation.1 [1, 1, 2, 3, 4, 5] [InputLine.empty] (by decide),
    parse_input_validation.2 [InputLine.nums [6, 5, 4, 3, 2, 1]] [1, 2, 3, 4, 5, 6]
      (by decide)⟩

-- ## C5: future-winner projection


theorem nodup_missing_list (chosen current : List Int) :
    (chosen.dedup.filter (fun n => n ∉ current)).Nodup :=
  (List.nodup_dedup chosen).filter _

theorem toFinset_missing_list (chosen current : List Int) :
    (chosen.dedup.filter (fun n => n ∉ current)).toFinset =
      chosen.toFinset \ current.toFinset := by
  apply Finset.ext
  intro a
  simp [List.mem_filter, List.mem_dedup]

theorem length_filter_eq_inter_card (missing : List Int) (hnd : missing.Nodup)
    (qnums : List Int) :
    (missing.filter (fun n => n ∈ qnums)).length =
      (missing.toFinset ∩ qnums.toFinset).card := by
  have hnd' : (missing.filter (fun n => n ∈ qnums)).Nodup := hnd.filter _
  rw [← List.toFinset_card_of_nodup hnd']
  congr 1
  apply Finset.ext
  intro a
  simp [List.mem_filter]

/-- C5: when the projected participant is found in the Roster, the
implementation returns exactly the spec's projection: the missing numbers are
the chosen numbers minus the accumulated correct numbers (sorted), and the
potential-winner count counts precisely the *other* participants `q` with
`total_correct(q) + |missing ∩ chosen(q)| ≥ 10`; the participant is excluded
from their own count by construction. -/
theorem missing_numbers_projection (roster : List Participant) (p : Progress)
    (player_name : String) (winning : List Int) (player : Participant)
    (hfind : roster.find? (fun q => q.name = player_name) = some player) :
    ∃ m c, get_missing_numbers_info roster p player_name winning = some (m, c) ∧
      m.toFinset =
        spec_missing_numbers player.numbers.toFinset (entrySet p.players player_name) ∧
      m.Sorted (· ≤ ·) ∧
      c = ((roster.filter (fun q => decide (q.name ≠ player_name))).filter
            (fun q => decide (spec_potential_winner
              (spec_missing_numbers player.numbers.toFinset
                (entrySet p.players player_name))
              (entrySet p.players q.name).card q.numbers.toFinset))).length := by
  unfold get_missing_numbers_info
  rw [hfind]
  refine ⟨_, _, rfl, ?_, sorted_pysorted _, ?_⟩
  · rw [toFinset_pysorted, toFinset_missing_list, toFinset_dedup]
    rfl
  · rw [List.filter_filter, List.countP_eq_length_filter]
    congr 1
    apply List.filter_congr
    intro q hq
    have h1 : (correctOf p.players q.name).dedup.length =
        (entrySet p.players q.name).card := (List.card_toFinset _).symm
    have h2 : ((player.numbers.dedup.filter
          (fun n => n ∉ (correctOf p.players player_name).dedup)).filter
            (fun n => n ∈ q.numbers)).length =
        (spec_missing_numbers player.numbers.toFinset
            (entrySet p.players player_name) ∩ q.numbers.toFinset).card := by
      rw [length_filter_eq_inter_card _ (nodup_missing_list _ _),
        toFinset_missing_list, toFinset_dedup]
      rfl
    simp only [spec_potential_winner, h1, h2, Bool.and_comm]


theorem missing_numbers_projection_witness :
    ∃ m c, get_missing_numbers_info rosterC5 progressC5 "P" [1, 2, 3, 4, 5, 6] =
        some (m, c) ∧
      m.toFinset =
        spec_missing_numbers
          ((⟨"P", [1, 2, 3, 4, 5, 6, 7, 8, 9, 10]⟩ : Participant)).numbers.toFinset
          (entrySet progressC5.players "P") ∧
      m.Sorted (· ≤ ·) ∧
      c = ((rosterC5.filter (fun q => decide (q.name ≠ "P"))).filter
            (fun q => decide (spec_potential_winner
              (spec_missing_numbers
                ((⟨"P", [1, 2, 3, 4, 5, 6, 7, 8, 9, 10]⟩ : Participant)).numbers.toFinset
                (entrySet progressC5.players "P"))
              (entrySet progressC5.players q.name).card q.numbers.toFinset))).length :=
  missing_numbers_projection rosterC5 progressC5 "P" [1, 2, 3, 4, 5, 6]
    ⟨"P", [1, 2, 3, 4, 5, 6, 7, 8, 9, 10]⟩ (by decide)

-- ## C10: accumulated numbers stay within the chosen ten


theorem lookup_applyResults_not_mem (prs : List (String × List Int))
    (ps : List (String × PlayerEntry)) (n : String) (h : n ∉ prs.map Prod.fst) :
    lookupPlayer (applyResults ps prs) n = lookupPlayer ps n := by
  induction prs generalizing ps with
  | nil => rfl
  | cons r rest ih =>
      simp only [List.map_cons, List.mem_cons, not_or] at h
      rw [applyResults_cons, ih _ h.2]
      unfold updateOnePlayer
      exact lookupPlayer_setPlayer_other ps r.1 _ n (fun he => h.1 he.symm)

theorem lookup_applyResults_nodup (n : String) (nums : List Int) :
    ∀ (prs : List (String × List Int)) (ps : List (String × PlayerEntry)),
      (prs.map Prod.fst).Nodup → (n, nums) ∈ prs →
      lookupPlayer (applyResults ps prs) n =
        some ⟨((correctOf ps n ++ nums).dedup).length,
          pysorted ((correctOf ps n ++ nums).dedup)⟩ := by
  intro prs
  induction prs with
  | nil => intro ps _ h; simp at h
  | cons r rest ih =>
      intro ps hn h
      simp only [List.map_cons, List.nodup_cons] at hn
      rw [applyResults_cons]
      rcases List.mem_cons.1 h with h' | h'
      · have hr : r = (n, nums) := h'.symm
        subst hr
        rw [lookup_applyResults_not_mem rest _ n hn.1]
        unfold updateOnePlayer
        exact lookupPlayer_setPlayer_same ps n _
      · have hne : r.1 ≠ n := by
          intro he
          exact hn.1 (he ▸ List.mem_map_of_mem Prod.fst h')
        rw [ih _ hn.2 h', correctOf_updateOnePlayer_other ps r.1 r.2 n hne]

theorem entryInv_foldDraw (roster : List Participant) (p : Progress) (w : List Int)
    (d : String) (l : Bool) (pt : Participant) (hmem : pt ∈ roster)
    (hnames : (roster.map Participant.name).Nodup) (hlen : pt.numbers.length = 10)
    (hinv : entryInv pt p.players) : entryInv pt (foldDraw roster p w d l).players := by
  intro e he
  have hprs : (playerResults roster w).map Prod.fst = roster.map Participant.name := by
    simp [playerResults, List.map_map]
  have hnd : ((playerResults roster w).map Prod.fst).Nodup := by
    rw [hprs]
    exact hnames
  have hm : (pt.name, (pysorted pt.numbers).filter (fun n => n ∈ w)) ∈
      playerResults roster w := List.mem_map_of_mem _ hmem
  have hlookup := lookup_applyResults_nodup pt.name _ (playerResults roster w)
    p.players hnd hm
  have he' : lookupPlayer (applyResults p.players (playerResults roster w)) pt.name =
      some e := he
  rw [hlookup] at he'
  injection he' with hee
  subst hee
  have hbase : (correctOf p.players pt.name).toFinset ⊆ pt.numbers.toFinset := by
    unfold correctOf
    cases hb : lookupPlayer p.players pt.name with
    | none => simp
    | some e0 => exact (hinv e0 hb).1
  have hfilter : ((pysorted pt.numbers).filter (fun n => n ∈ w)).toFinset ⊆
      pt.numbers.toFinset := by
    intro x hx
    simp only [List.mem_toFinset, List.mem_filter] at hx
    have := (List.perm_insertionSort (· ≤ ·) pt.numbers).mem_iff.1 hx.1
    simpa using this
  have hsub : ((correctOf p.players pt.name ++
      (pysorted pt.numbers).filter (fun n => n ∈ w)).dedup).toFinset ⊆
        pt.numbers.toFinset := by
    rw [toFinset_dedup, List.toFinset_append]
    exact Finset.union_subset hbase hfilter
  refine ⟨?_, sorted_pysorted _, nodup_pysorted_dedup _, ?_⟩
  · rw [toFinset_pysorted]
    exact hsub
  · have h1 : ((correctOf p.players pt.name ++
        (pysorted pt.numbers).filter (fun n => n ∈ w)).dedup).length =
        ((correctOf p.players pt.name ++
          (pysorted pt.numbers).filter (fun n => n ∈ w)).dedup).toFinset.card :=
      (List.toFinset_card_of_nodup (List.nodup_dedup _)).symm
    calc ((correctOf p.players pt.name ++
            (pysorted pt.numbers).filter (fun n => n ∈ w)).dedup).length
        = _ := h1
      _ ≤ pt.numbers.toFinset.card := Finset.card_le_card hsub
      _ ≤ pt.numbers.length := List.toFinset_card_le _
      _ = 10 := hlen

/-- C10: over any sequence of folds performed through `check_participants`
on a roster with distinct names whose participant holds 10 chosen numbers,
the participant's stored `correct_numbers` list remains a subset of their
chosen numbers, sorted ascending and duplicate-free, and `total_correct`
never exceeds 10. -/
theorem chosen_numbers_invariant (roster : List Participant) (p : Progress)
    (draws : List (List Int × String × Bool)) (pt : Participant)
    (hmem : pt ∈ roster) (hnames : (roster.map Participant.name).Nodup)
    (hlen : pt.numbers.length = 10) (hinv : entryInv pt p.players) :
    entryInv pt (foldDraws roster p draws).players := by
  induction draws generalizing p with
  | nil => exact hinv
  | cons dr rest ih =>
      obtain ⟨w, d, l⟩ := dr
      exact ih _ (entryInv_foldDraw roster p w d l pt hmem hnames hlen hinv)

theorem chosen_numbers_invariant_witness :
    ((⟨4, [3, 5, 9, 40]⟩ : PlayerEntry).correct_numbers.toFinset ⊆
        ((⟨"Ann", [5, 3, 9, 12, 20, 21, 30, 31, 40, 41]⟩ : Participant)).numbers.toFinset) ∧
      (⟨4, [3, 5, 9, 40]⟩ : PlayerEntry).correct_numbers.Sorted (· ≤ ·) ∧
      (⟨4, [3, 5, 9, 40]⟩ : PlayerEntry).correct_numbers.Nodup ∧
      (⟨4, [3, 5, 9, 40]⟩ : PlayerEntry).total_correct ≤ 10 :=
  chosen_numbers_invariant [⟨"Ann", [5, 3, 9, 12, 20, 21, 30, 31, 40, 41]⟩]
    initialProgress
    [([3, 9, 44, 1, 2, 7], "d1", false), ([5, 40, 44, 2, 13, 14], "d2", true)]
    ⟨"Ann", [5, 3, 9, 12, 20, 21, 30, 31, 40, 41]⟩ (by decide) (by decide) (by decide)
    (by intro e he; simp [initialProgress, lookupPlayer] at he)
    ⟨4, [3, 5, 9, 40]⟩ (by decide)

-- ## C3: which folds are flagged latest in one invocation


set_option maxRecDepth 8192 in
/-- C3 (evaluation at the failing input): with two unprocessed ledger draws
and a manually entered draw in the same invocation, `main` folds the backlog
in ascending ledger order but flags BOTH the chronologically last unprocessed
draw and the manual draw as latest — two folds with `is_latest = true` in one
invocation, where the claim requires exactly one. -/
theorem two_latest_folds_in_one_invocation :
    (main_folds rosterC3 ledgerC3 initialProgress (some [13, 14, 15, 16, 17, 18])
          "15-Jan-25").2.map (fun f => (f.1, f.2.1)) =
        [("01-Jan-25", false), ("08-Jan-25", true), ("15-Jan-25", true)] ∧
      ((main_folds rosterC3 ledgerC3 initialProgress (some [13, 14, 15, 16, 17, 18])
          "15-Jan-25").2.filter (fun f => f.2.1)).length = 2 := by decide

example :
    (foldDraw [⟨"Ann", [5, 3, 9, 12, 20, 21, 30, 31, 40, 41]⟩] initialProgress
      [3, 9, 44, 1, 2, 7] "01-Jan-25" true).players =
      [("Ann", ⟨2, [3, 9]⟩)] := by decide

example :
    (foldDraw [⟨"Ann", [5, 3, 9, 12, 20, 21, 30, 31, 40, 41]⟩] initialProgress
      [3, 9, 44, 1, 2, 7] "01-Jan-25" true).processed_draws = ["01-Jan-25"] := by decide
